import Mathlib

set_option maxRecDepth 100000

/-!
Verification of the DidYouCheckNotionBot classification engine
(`DYCN_bot/bot.py`).

Strings are modelled as `List Char`; Python floats are modelled by exact
rationals `ℚ` (all scores in the program are finite rationals, so this is
the faithful idealisation).  The fuzzy scorer `rapidfuzz.fuzz.partial_ratio`
used by the code is modelled below by `partRatio`, following the library
semantics: the Indel-based `ratio` (normalised longest-common-subsequence
similarity, two empty strings count as 100) maximised over the alignments of
the shorter string inside the longer one (all length-`m` substrings of the
longer string plus its proper prefixes and suffixes shorter than `m`); for
equal-length inputs the library tries both directions.
-/

/-- Convert a Lean string literal to the `List Char` representation. -/
def toL (s : String) : List Char := s.data

/-- Model of Python `str.lower()` (case folding, per character). -/
def lower (l : List Char) : List Char := l.map Char.toLower

/-- Length of a longest common subsequence of two character lists. -/
def lcs : List Char → List Char → Nat
  | [], _ => 0
  | _ :: _, [] => 0
  | a :: as, b :: bs =>
    if a = b then lcs as bs + 1
    else max (lcs (a :: as) bs) (lcs as (b :: bs))
termination_by a b => a.length + b.length

/-- Model of `rapidfuzz.fuzz.ratio`: normalised Indel similarity as a
percentage, `200·lcs/(|a|+|b|)`; two empty strings score 100. -/
def ratio (a b : List Char) : ℚ :=
  if a.length + b.length = 0 then 100
  else 200 * (lcs a b : ℚ) / ((a.length : ℚ) + (b.length : ℚ))

/-- The alignment windows `partial_ratio` compares the needle against: all
substrings of `l` of the needle length `m`, together with the proper
prefixes and proper suffixes of `l` of lengths `1 … m-1`. -/
def windows (m : Nat) (l : List Char) : List (List Char) :=
  ((List.range (l.length - m + 1)).map fun i => (l.drop i).take m)
    ++ ((List.range (m - 1)).map fun i => l.take (i + 1))
    ++ ((List.range (m - 1)).map fun i => l.drop (l.length - (i + 1)))

/-- Maximum of two rationals, written so that it evaluates by kernel
reduction (definitionally equal to `max`, see `qmax_eq_max`). -/
def qmax (a b : ℚ) : ℚ := if a ≤ b then b else a

/-- One direction of `partial_ratio`: best `ratio` of the needle `s1`
against any window of the haystack `s2` (0 when the needle is empty,
mirroring the library behaviour). -/
def partRatioImpl (s1 s2 : List Char) : ℚ :=
  if s1 = [] then 0
  else ((windows s1.length s2).map (ratio s1)).foldr qmax 0

/-- Model of `rapidfuzz.fuzz.partial_ratio` (used at `bot.py` lines 35-44):
two empty strings score 100; otherwise the shorter string is aligned inside
the longer one, and equal-length inputs are tried in both directions. -/
def partRatio (s1 s2 : List Char) : ℚ :=
  if s1 = [] ∧ s2 = [] then 100
  else if s1.length < s2.length then partRatioImpl s1 s2
  else if s2.length < s1.length then partRatioImpl s2 s1
  else qmax (partRatioImpl s1 s2) (partRatioImpl s2 s1)

/-- One catalog record of `notion_data` (see spec §3 and the catalog
format of spec §6): `topic`, `keywords`, `summary`, `reply`, `link`.
The `keywords` key may be absent from a record (spec §6: "possibly
empty/absent"), modelled as `none`; `some l` models a present key holding
the list `l`.  The distinction matters: `item.get("keywords")` at
`bot.py` line 40 tolerates an absent key, while the `c[1]["keywords"]`
subscript at line 75 raises KeyError on one. -/
structure TopicEntry where
  topic : List Char
  keywords : Option (List (List Char))
  summary : List Char
  reply : List Char
  link : List Char
deriving DecidableEq

/-- Python `max` over a list of scores (the generator in `bot.py` line 39
is only evaluated on a non-empty `keywords` list; `pymax [] = 0` is a
dead default). -/
def pymax : List ℚ → ℚ
  | [] => 0
  | x :: xs => xs.foldl qmax x

/-- `weighted_similarity` from `bot.py` lines 28-47: 6× topic similarity,
4× best keyword similarity (0 when `item.get("keywords")` is falsy, i.e.
when the key is absent or holds the empty list), 2× summary similarity. -/
def weighted_similarity (user_msg : List Char) (item : TopicEntry) : ℚ :=
  let msg := lower user_msg
  let topic_score := partRatio msg (lower item.topic) * 6
  let keyword_score :=
    match item.keywords with
    | none => 0
    | some kws =>
      if kws ≠ [] then
        pymax (kws.map fun kw => partRatio msg (lower kw)) * 4
      else 0
  let summary_score := partRatio msg (lower item.summary) * 2
  topic_score + keyword_score + summary_score

/-- A scored candidate: `(score, entry)`, exactly the tuples appended to
`scored` in `bot.py` lines 51-54. -/
abbrev Candidate := ℚ × TopicEntry

/-- Insert a candidate into an already descending-sorted list, after every
element of strictly greater score and before everything else.  Folding this
over the list (`sortDesc`) is the stable descending sort performed by
Python `sorted(scored, key=lambda x: x[0], reverse=True)` in `bot.py`
line 56: descending by score, and candidates of equal score keep their
original relative order. -/
def insertDesc (c : Candidate) : List Candidate → List Candidate
  | [] => [c]
  | d :: ds => if c.1 < d.1 then d :: insertDesc c ds else c :: d :: ds

/-- Stable descending sort by score (model of `sorted(..., reverse=True)`,
`bot.py` line 56). -/
def sortDesc : List Candidate → List Candidate
  | [] => []
  | x :: xs => insertDesc x (sortDesc xs)

/-- The scored list built by the loop in `bot.py` lines 51-54. -/
def scoredList (user_message : List Char) (notion_data : List TopicEntry) :
    List Candidate :=
  notion_data.map fun item => (weighted_similarity user_message item, item)

/-- `top_candidates` from `bot.py` line 56: every entry scored, then stably
sorted by descending score (spec §4.2, the Ranker). -/
def rank (user_message : List Char) (notion_data : List TopicEntry) :
    List Candidate :=
  sortDesc (scoredList user_message notion_data)

/-- A slim candidate (`bot.py` lines 71-78): only `topic`, `summary`,
`keywords` survive into the oracle prompt. -/
structure SlimCandidate where
  topic : List Char
  summary : List Char
  keywords : List (List Char)
deriving DecidableEq

/-- The data the prompt f-string (`bot.py` lines 80-102) is built from: the
candidate topic names (the `json.dumps` list of topic fields), the slim candidate
records (`json.dumps(slim_candidates)`), and the raw user message.  The
prompt text is a fixed template around exactly these three values. -/
structure Prompt where
  candidate_topics : List (List Char)
  candidates : List SlimCandidate
  user_message : List Char
deriving DecidableEq

/-- The runtime faults the classification pipeline can raise: the
`top_candidates[0]` subscript on an empty list (`bot.py` line 62) and the
`c[1]["keywords"]` subscript on a record without a `keywords` key
(`bot.py` line 75, outside the `try` block that starts at line 116). -/
inductive PyFault where
  | indexError
  | keyError
deriving DecidableEq

/-- One record of the `slim_candidates` comprehension (`bot.py` lines
71-78): the `c[1]["keywords"]` subscript raises KeyError when the record
has no `keywords` key. -/
def slimOf (e : TopicEntry) : Except PyFault SlimCandidate :=
  match e.keywords with
  | none => .error .keyError
  | some kws => .ok ⟨e.topic, e.summary, kws⟩

/-- The `slim_candidates` list comprehension (`bot.py` lines 71-78),
propagating the first KeyError in iteration order. -/
def slimList : List Candidate → Except PyFault (List SlimCandidate)
  | [] => .ok []
  | c :: cs =>
    match slimOf c.2 with
    | .error f => .error f
    | .ok s =>
      match slimList cs with
      | .error f => .error f
      | .ok ss => .ok (s :: ss)

/-- The prompt built from the top 4 ranked candidates (`bot.py` lines
69-102); faults with KeyError when one of them lacks a `keywords` key. -/
def mkPrompt (user_message : List Char) (notion_data : List TopicEntry) :
    Except PyFault Prompt :=
  match slimList ((rank user_message notion_data).take 4) with
  | .error f => .error f
  | .ok slim => .ok ⟨slim.map fun c => c.topic, slim, user_message⟩

/-- The oracle HTTP response as seen through the accesses the code makes:
`status_code`, and the `choices` list (`none` models a JSON body without a
`"choices"` key); each choice is reduced to its
`.get("message", {}).get("content", "")` string. -/
structure OracleResponse where
  status_code : Nat
  choices : Option (List (List Char))
deriving DecidableEq

/-- Outcome of the `requests.post` call in `bot.py` lines 116-150: a
delivered response, a `requests.exceptions.RequestException` (network
failure / timeout), or any other unexpected exception. -/
inductive OracleOutcome where
  | success (r : OracleResponse)
  | requestExn
  | otherExn
deriving DecidableEq

/-- Python `str.strip()`: remove leading and trailing whitespace. -/
def stripWS (l : List Char) : List Char :=
  ((l.dropWhile Char.isWhitespace).reverse.dropWhile Char.isWhitespace).reverse

/-- Python `str.strip('"')`: remove leading and trailing double quotes. -/
def stripQuote (l : List Char) : List Char :=
  ((l.dropWhile (fun c => c = '"')).reverse.dropWhile (fun c => c = '"')).reverse

/-- `msg.split("\n")[0]`: the characters before the first newline. -/
def firstLine (l : List Char) : List Char := l.takeWhile fun c => c ≠ '\n'

/-- Python `str.replace("**", "")`: delete every (left-to-right,
non-overlapping) occurrence of `**`. -/
def removeStars : List Char → List Char
  | '*' :: '*' :: rest => removeStars rest
  | c :: rest => c :: removeStars rest
  | [] => []

/-- Response handling of the oracle call, `bot.py` lines 124-150: any
transport error, non-200 status, missing/empty `choices`, or blank content
degrades to `"none"`; otherwise the first line of the stripped content is
stripped of whitespace and surrounding quotes and has all `**` markers
removed. -/
def parseOracle : OracleOutcome → List Char
  | .requestExn => toL "none"
  | .otherExn => toL "none"
  | .success r =>
    if r.status_code ≠ 200 then toL "none"
    else
      match r.choices with
      | none => toL "none"
      | some [] => toL "none"
      | some (c :: _) =>
        let msg := stripWS c
        if msg = [] then toL "none"
        else removeStars (stripQuote (stripWS (firstLine msg)))

instance {ε α : Type} [DecidableEq ε] [DecidableEq α] : DecidableEq (Except ε α) := fun x y =>
  match x, y with
  | .error e, .error f =>
    if h : e = f then .isTrue (by rw [h]) else .isFalse (by simp [h])
  | .error _, .ok _ => .isFalse (by simp)
  | .ok _, .error _ => .isFalse (by simp)
  | .ok a, .ok b =>
    if h : a = b then .isTrue (by rw [h]) else .isFalse (by simp [h])

/-- `classify_message` from `bot.py` lines 50-150, with the oracle call
abstracted as a function from the constructed prompt to an outcome.
Scores every entry, stably sorts descending, reads the top score
(IndexError on an empty catalog), returns `"Scholarship"` when the top
score is below 700, and otherwise builds the top-4 slim prompt (KeyError
when a selected record lacks a `keywords` key — this happens before the
`try` block), sends it to the oracle and parses the answer. -/
def classify_message (user_message : List Char) (notion_data : List TopicEntry)
    (oracle : Prompt → OracleOutcome) : Except PyFault (List Char) :=
  match rank user_message notion_data with
  | [] => .error .indexError
  | best :: _ =>
    if best.1 < 700 then .ok (toL "Scholarship")
    else
      match mkPrompt user_message notion_data with
      | .error f => .error f
      | .ok prompt => .ok (parseOracle (oracle prompt))

/-- The JSON payload shapes `respond` can emit after classification
(`bot.py` lines 168-185): the no-match shape `{reply, link, user}` and the
match shape `{reply, topic, user}`. -/
inductive RespondPayload where
  | noMatch (reply : List Char) (link : Option (List Char)) (user : List Char)
  | found (reply : List Char) (topic : List Char) (user : List Char)
deriving DecidableEq

/-- The resolution tail of `respond`, `bot.py` lines 168-185: given the
topic name produced by classification, a case-insensitive literal-"none"
check, then a case-insensitive first-match lookup over the catalog; a miss
gives `{reply: "none", link: null}`, a hit composes the entry reply, a
newline, the `👉 ` marker and the entry link. -/
def respond_resolve (topic : List Char) (notion_data : List TopicEntry)
    (user_id : List Char) : RespondPayload :=
  if lower topic = toL "none" then .noMatch (toL "none") none user_id
  else
    match notion_data.find? fun item => lower item.topic == lower topic with
    | none => .noMatch (toL "none") none user_id
    | some entry => .found (entry.reply ++ toL "\n👉 " ++ entry.link) topic user_id

/-- The Scorer contract as the spec states it (spec §4.1 / claim C1):
6× the fuzzy partial-match similarity between the lower-cased message and
the lower-cased topic, plus 4× the maximum similarity against any single
lower-cased keyword (0 for an empty or absent keyword list), plus 2× the
similarity against the lower-cased summary. -/
def scorer_spec (message : List Char) (entry : TopicEntry) : ℚ :=
  6 * partRatio (lower message) (lower entry.topic)
    + 4 * (((entry.keywords.getD []).map fun kw =>
        partRatio (lower message) (lower kw)).foldr max 0)
    + 2 * partRatio (lower message) (lower entry.summary)

/-- Entries that agree on the fields the Scorer and the prompt read:
`topic`, `keywords` and `summary` (they may differ in `reply`/`link`). -/
def slimEq (e1 e2 : TopicEntry) : Prop :=
  e1.topic = e2.topic ∧ e1.keywords = e2.keywords ∧ e1.summary = e2.summary

/-- Scored candidates that agree on score and on the slim entry fields. -/
def candEq (a b : Candidate) : Prop := a.1 = b.1 ∧ slimEq a.2 b.2

/-- The oracle-call failure modes enumerated by the spec (§4.4 / claim C4):
network-level failure or timeout, any other unexpected exception,
non-success transport status, missing or empty `choices`, and blank answer
content. -/
def oracleFails : OracleOutcome → Prop
  | .requestExn => True
  | .otherExn => True
  | .success r =>
    r.status_code ≠ 200 ∨ r.choices = none ∨ r.choices = some []
      ∨ ∃ c rest, r.choices = some (c :: rest) ∧ stripWS c = []

theorem qmax_eq_max (a b : ℚ) : qmax a b = max a b := by
  simp [qmax, max_def]

theorem lcs_le_left (a b : List Char) : lcs a b ≤ a.length := by
  induction a, b using lcs.induct with
  | case1 x => simp [lcs]
  | case2 hd tl => simp [lcs]
  | case3 as b bs ih => simpa [lcs] using ih
  | case4 a as b bs h ih1 ih2 =>
    simp only [lcs, if_neg h, List.length_cons, max_le_iff]
    constructor
    · exact ih1
    · exact le_trans ih2 (by simp)

theorem lcs_le_right (a b : List Char) : lcs a b ≤ b.length := by
  induction a, b using lcs.induct with
  | case1 x => simp [lcs]
  | case2 hd tl => simp [lcs]
  | case3 as b bs ih => simpa [lcs] using ih
  | case4 a as b bs h ih1 ih2 =>
    simp only [lcs, if_neg h, List.length_cons, max_le_iff]
    constructor
    · exact le_trans ih1 (by simp)
    · exact ih2

theorem lcs_self (a : List Char) : lcs a a = a.length := by
  induction a with
  | nil => simp [lcs]
  | cons hd tl ih => simp [lcs, ih]

theorem ratio_nonneg (a b : List Char) : 0 ≤ ratio a b := by
  unfold ratio
  split
  · norm_num
  · positivity

theorem ratio_le_100 (a b : List Char) : ratio a b ≤ 100 := by
  unfold ratio
  split
  · norm_num
  · rename_i h
    have hpos : (0 : ℚ) < (a.length : ℚ) + (b.length : ℚ) := by
      have : 0 < a.length + b.length := Nat.pos_of_ne_zero h
      exact_mod_cast this
    rw [div_le_iff₀ hpos]
    have h1 : (lcs a b : ℚ) ≤ a.length := by exact_mod_cast lcs_le_left a b
    have h2 : (lcs a b : ℚ) ≤ b.length := by exact_mod_cast lcs_le_right a b
    nlinarith

theorem foldr_qmax_nonneg (l : List ℚ) : 0 ≤ l.foldr qmax 0 := by
  induction l with
  | nil => simp
  | cons x xs ih =>
    simp only [List.foldr_cons, qmax_eq_max]
    exact le_trans ih (le_max_right _ _)

theorem foldr_qmax_le (l : List ℚ) (c : ℚ) (hc : 0 ≤ c)
    (h : ∀ x ∈ l, x ≤ c) : l.foldr qmax 0 ≤ c := by
  induction l with
  | nil => simpa using hc
  | cons x xs ih =>
    simp only [List.foldr_cons, qmax_eq_max, max_le_iff]
    exact ⟨h x (by simp), ih fun y hy => h y (by simp [hy])⟩

theorem le_foldr_qmax (l : List ℚ) (x : ℚ) (hx : x ∈ l) : x ≤ l.foldr qmax 0 := by
  induction l with
  | nil => simp at hx
  | cons y ys ih =>
    simp only [List.foldr_cons, qmax_eq_max]
    rcases List.mem_cons.mp hx with h | h
    · subst h; exact le_max_left _ _
    · exact le_trans (ih h) (le_max_right _ _)

theorem partRatioImpl_nonneg (s1 s2 : List Char) : 0 ≤ partRatioImpl s1 s2 := by
  unfold partRatioImpl
  split
  · norm_num
  · exact foldr_qmax_nonneg _

theorem partRatioImpl_le_100 (s1 s2 : List Char) : partRatioImpl s1 s2 ≤ 100 := by
  unfold partRatioImpl
  split
  · norm_num
  · refine foldr_qmax_le _ _ (by norm_num) ?_
    intro x hx
    rcases List.mem_map.mp hx with ⟨w, _, rfl⟩
    exact ratio_le_100 _ _

theorem partRatio_nonneg (s1 s2 : List Char) : 0 ≤ partRatio s1 s2 := by
  unfold partRatio
  split
  · norm_num
  · split
    · exact partRatioImpl_nonneg _ _
    · split
      · exact partRatioImpl_nonneg _ _
      · rw [qmax_eq_max]
        exact le_trans (partRatioImpl_nonneg s1 s2) (le_max_left _ _)

theorem partRatio_le_100 (s1 s2 : List Char) : partRatio s1 s2 ≤ 100 := by
  unfold partRatio
  split
  · norm_num
  · split
    · exact partRatioImpl_le_100 _ _
    · split
      · exact partRatioImpl_le_100 _ _
      · rw [qmax_eq_max, max_le_iff]
        exact ⟨partRatioImpl_le_100 _ _, partRatioImpl_le_100 _ _⟩

theorem ratio_self (a : List Char) (ha : a ≠ []) : ratio a a = 100 := by
  unfold ratio
  have hlen : a.length ≠ 0 := by simpa using ha
  rw [if_neg (by omega), lcs_self]
  have : (a.length : ℚ) ≠ 0 := by exact_mod_cast hlen
  field_simp
  ring

theorem partRatioImpl_self (a : List Char) (ha : a ≠ []) : partRatioImpl a a = 100 := by
  unfold partRatioImpl
  rw [if_neg ha]
  have hmem : (100 : ℚ) ∈ (windows a.length a).map (ratio a) := by
    refine List.mem_map.mpr ⟨a, ?_, ratio_self a ha⟩
    unfold windows
    refine List.mem_append.mpr (Or.inl (List.mem_append.mpr (Or.inl ?_)))
    refine List.mem_map.mpr ⟨0, ?_, by simp⟩
    simp
  refine le_antisymm ?_ (le_foldr_qmax _ _ hmem)
  refine foldr_qmax_le _ _ (by norm_num) ?_
  intro x hx
  rcases List.mem_map.mp hx with ⟨w, _, rfl⟩
  exact ratio_le_100 _ _

theorem partRatio_self (a : List Char) : partRatio a a = 100 := by
  unfold partRatio
  rcases eq_or_ne a [] with rfl | ha
  · simp
  · rw [if_neg (by simp [ha]), if_neg (lt_irrefl _), if_neg (lt_irrefl _),
      qmax_eq_max, max_self, partRatioImpl_self a ha]

theorem pymax_eq_foldr (l : List ℚ) (hl : l ≠ []) (h : ∀ x ∈ l, 0 ≤ x) :
    pymax l = l.foldr qmax 0 := by
  match l with
  | x :: xs =>
    clear hl
    unfold pymax
    induction xs generalizing x with
    | nil =>
      simp only [List.foldl_nil, List.foldr_cons, List.foldr_nil, qmax_eq_max]
      exact (max_eq_left (h x (by simp))).symm
    | cons y ys ih =>
      have hys : ∀ z ∈ qmax x y :: ys, 0 ≤ z := by
        intro z hz
        rcases List.mem_cons.mp hz with rfl | hz
        · rw [qmax_eq_max]
          exact le_trans (h x (by simp)) (le_max_left _ _)
        · exact h z (by simp [hz])
      have := ih (qmax x y) hys
      simp only [List.foldl_cons] at *
      rw [this]
      simp only [List.foldr_cons, qmax_eq_max, max_assoc]

theorem pymax_nonneg (l : List ℚ) (h : ∀ x ∈ l, 0 ≤ x) : 0 ≤ pymax l := by
  rcases eq_or_ne l [] with rfl | hl
  · simp [pymax]
  · rw [pymax_eq_foldr l hl h]
    exact foldr_qmax_nonneg _

theorem pymax_le (l : List ℚ) (c : ℚ) (hc : 0 ≤ c) (h0 : ∀ x ∈ l, 0 ≤ x)
    (h : ∀ x ∈ l, x ≤ c) : pymax l ≤ c := by
  rcases eq_or_ne l [] with rfl | hl
  · simpa [pymax] using hc
  · rw [pymax_eq_foldr l hl h0]
    exact foldr_qmax_le _ _ hc h

theorem foldr_qmax_eq_foldr_max (l : List ℚ) (b : ℚ) :
    l.foldr qmax b = l.foldr max b := by
  induction l with
  | nil => rfl
  | cons x xs ih => simp [qmax_eq_max, ih]

theorem weighted_similarity_bounds (msg : List Char) (item : TopicEntry) :
    0 ≤ weighted_similarity msg item ∧ weighted_similarity msg item ≤ 1200 := by
  simp only [weighted_similarity]
  have ht0 := partRatio_nonneg (lower msg) (lower item.topic)
  have ht1 := partRatio_le_100 (lower msg) (lower item.topic)
  have hs0 := partRatio_nonneg (lower msg) (lower item.summary)
  have hs1 := partRatio_le_100 (lower msg) (lower item.summary)
  rcases hk : item.keywords with _ | kws
  · simp only [hk]
    constructor
    · linarith
    · linarith
  · simp only [hk]
    have hmap0 : ∀ x ∈ kws.map fun kw => partRatio (lower msg) (lower kw), 0 ≤ x := by
      intro x hx
      rcases List.mem_map.mp hx with ⟨kw, _, rfl⟩
      exact partRatio_nonneg _ _
    have hmap1 : ∀ x ∈ kws.map fun kw => partRatio (lower msg) (lower kw), x ≤ 100 := by
      intro x hx
      rcases List.mem_map.mp hx with ⟨kw, _, rfl⟩
      exact partRatio_le_100 _ _
    have hk0 : (0 : ℚ) ≤
        (if kws ≠ [] then
          pymax (kws.map fun kw => partRatio (lower msg) (lower kw)) * 4
        else 0) := by
      split
      · have := pymax_nonneg _ hmap0
        linarith
      · exact le_refl 0
    have hk1 : (if kws ≠ [] then
          pymax (kws.map fun kw => partRatio (lower msg) (lower kw)) * 4
        else 0) ≤ 400 := by
      split
      · have := pymax_le _ 100 (by norm_num) hmap0 hmap1
        linarith
      · norm_num
    constructor
    · linarith
    · linarith

/-- C1: for every message and catalog entry, the Scorer result equals
6× the fuzzy partial-match similarity between the lower-cased message and
the lower-cased topic, plus 4× the maximum similarity between the message
and any single lower-cased keyword (0 when `keywords` is empty or absent),
plus 2× the similarity between the message and the lower-cased summary. -/
theorem c1_scorer_weighted_sum (msg : List Char) (entry : TopicEntry) :
    weighted_similarity msg entry = scorer_spec msg entry := by
  simp only [weighted_similarity, scorer_spec]
  rcases hk : entry.keywords with _ | kws
  · simp only [hk, Option.getD_none, List.map_nil, List.foldr_nil, mul_zero]
    ring
  · simp only [hk, Option.getD_some]
    rcases eq_or_ne kws [] with rfl | hne
    · simp only [ne_eq, not_true_eq_false, if_false, List.map_nil,
        List.foldr_nil, mul_zero]
      ring
    · rw [if_pos hne]
      have hmap0 : ∀ x ∈ kws.map fun kw => partRatio (lower msg) (lower kw), 0 ≤ x := by
        intro x hx
        rcases List.mem_map.mp hx with ⟨kw, _, rfl⟩
        exact partRatio_nonneg _ _
      have hmapne : kws.map (fun kw => partRatio (lower msg) (lower kw)) ≠ [] := by
        simpa using hne
      rw [pymax_eq_foldr _ hmapne hmap0, foldr_qmax_eq_foldr_max]
      ring

/-- C8 (amended): every score lies in `[0, 1200]`, and the score of the
empty message against the all-empty-fields entry is 800 (not 0: the fuzzy
ratio of two empty strings is 100, so the topic and summary terms
contribute 600 + 200). -/
theorem c8_score_range_amended :
    (∀ msg item, 0 ≤ weighted_similarity msg item
        ∧ weighted_similarity msg item ≤ 1200)
      ∧ weighted_similarity [] ⟨[], some [], [], [], []⟩ = 800 :=
  ⟨weighted_similarity_bounds, by with_unfolding_all decide⟩

/-- C8 counterexample: the claim says the score of an empty message
against an entry with empty topic, keywords and summary is exactly 0; the
code gives 800. -/
theorem c8_counterexample :
    weighted_similarity [] ⟨[], some [], [], [], []⟩ = 800
      ∧ weighted_similarity [] ⟨[], some [], [], [], []⟩ ≠ 0 := by
  constructor
  · with_unfolding_all decide
  · with_unfolding_all decide

/-- C9 counterexample: with message `"a"`, the entry whose topic is exactly
`"a"` does NOT score strictly higher than an otherwise-identical entry with
topic `"ab"`: the partial-match similarity of `"a"` inside `"ab"` is also
100, so both entries score 600. -/
theorem c9_counterexample :
    toL "ab" ≠ toL "a"
      ∧ ¬ weighted_similarity (toL "a") ⟨toL "a", some [], [], [], []⟩
          > weighted_similarity (toL "a") ⟨toL "ab", some [], [], [], []⟩ := by
  constructor
  · decide
  · with_unfolding_all decide

/-- C9 (amended): if the two entries agree on keywords and summary, one
topic is exactly the message, and the other topic partial-match
similarity with the message is below 100 (i.e. the message is not a
perfect partial match of it), then the exact-match entry scores strictly
higher and ranks strictly above the other even when the catalog lists it
second. -/
theorem c9_exact_topic_ranks_first (m : List Char) (e1 e2 : TopicEntry)
    (h1 : e1.topic = m) (hkw : e1.keywords = e2.keywords)
    (hsum : e1.summary = e2.summary)
    (h2 : partRatio (lower m) (lower e2.topic) < 100) :
    weighted_similarity m e1 > weighted_similarity m e2
      ∧ (rank m [e2, e1]).map Prod.snd = [e1, e2] := by
  have hgt : weighted_similarity m e1 > weighted_similarity m e2 := by
    simp only [weighted_similarity, h1, hkw, hsum, partRatio_self]
    linarith
  refine ⟨hgt, ?_⟩
  simp only [rank, scoredList, List.map_cons, List.map_nil, sortDesc, insertDesc]
  rw [if_pos hgt]
  simp [insertDesc]

/-- Witness for C9 (amended) at message `"a"`, topics `"a"` and `"b"`. -/
theorem c9_witness :
    partRatio (lower (toL "a")) (lower (toL "b")) < 100
      ∧ (weighted_similarity (toL "a") ⟨toL "a", some [], [], [], []⟩
            > weighted_similarity (toL "a") ⟨toL "b", some [], [], [], []⟩
        ∧ (rank (toL "a") [⟨toL "b", some [], [], [], []⟩, ⟨toL "a", some [], [], [], []⟩]).map Prod.snd
            = [⟨toL "a", some [], [], [], []⟩, ⟨toL "b", some [], [], [], []⟩]) :=
  ⟨by with_unfolding_all decide,
    c9_exact_topic_ranks_first (toL "a") ⟨toL "a", some [], [], [], []⟩
      ⟨toL "b", some [], [], [], []⟩ rfl rfl rfl (by with_unfolding_all decide)⟩

theorem insertDesc_perm (c : Candidate) (l : List Candidate) :
    (insertDesc c l).Perm (c :: l) := by
  induction l with
  | nil => exact List.Perm.refl _
  | cons d ds ih =>
    unfold insertDesc
    split
    · exact (ih.cons d).trans (List.Perm.swap c d ds)
    · exact List.Perm.refl _

theorem sortDesc_perm (l : List Candidate) : (sortDesc l).Perm l := by
  induction l with
  | nil => exact List.Perm.refl _
  | cons x xs ih =>
    exact (insertDesc_perm x (sortDesc xs)).trans (ih.cons x)

theorem insertDesc_sorted (c : Candidate) (l : List Candidate)
    (h : l.Pairwise fun a b => b.1 ≤ a.1) :
    (insertDesc c l).Pairwise fun a b => b.1 ≤ a.1 := by
  induction l with
  | nil => simp [insertDesc]
  | cons d ds ih =>
    rcases List.pairwise_cons.mp h with ⟨hd, hds⟩
    unfold insertDesc
    split
    · rename_i hlt
      refine List.pairwise_cons.mpr ⟨?_, ih hds⟩
      intro y hy
      have hy2 : y ∈ c :: ds := (insertDesc_perm c ds).mem_iff.mp hy
      rcases List.mem_cons.mp hy2 with rfl | hyds
      · exact le_of_lt hlt
      · exact hd y hyds
    · rename_i hge
      rw [not_lt] at hge
      refine List.pairwise_cons.mpr ⟨?_, h⟩
      intro y hy
      rcases List.mem_cons.mp hy with rfl | hyds
      · exact hge
      · exact le_trans (hd y hyds) hge

theorem sortDesc_sorted (l : List Candidate) :
    (sortDesc l).Pairwise fun a b => b.1 ≤ a.1 := by
  induction l with
  | nil => simp [sortDesc]
  | cons x xs ih => exact insertDesc_sorted x (sortDesc xs) ih

theorem filter_insertDesc (c : Candidate) (l : List Candidate) (s : ℚ) :
    (insertDesc c l).filter (fun d => decide (d.1 = s))
      = if c.1 = s then c :: l.filter (fun d => decide (d.1 = s))
        else l.filter (fun d => decide (d.1 = s)) := by
  induction l with
  | nil =>
    by_cases hcs : c.1 = s <;> simp [insertDesc, List.filter_cons, hcs]
  | cons d ds ih =>
    unfold insertDesc
    split
    · rename_i hlt
      by_cases hcs : c.1 = s
      · have hds : ¬ d.1 = s := fun hds => (ne_of_lt hlt) (hcs.trans hds.symm)
        simp [List.filter_cons, hcs, hds, ih]
      · by_cases hds : d.1 = s <;> simp [List.filter_cons, hcs, hds, ih]
    · by_cases hcs : c.1 = s <;> by_cases hds : d.1 = s <;>
        simp [List.filter_cons, hcs, hds]

theorem filter_sortDesc (l : List Candidate) (s : ℚ) :
    (sortDesc l).filter (fun d => decide (d.1 = s))
      = l.filter (fun d => decide (d.1 = s)) := by
  induction l with
  | nil => rfl
  | cons x xs ih =>
    simp only [sortDesc]
    rw [filter_insertDesc]
    by_cases h : x.1 = s <;> simp [List.filter_cons, h, ih]

/-- C2: ranking returns every catalog entry exactly once, paired with its
score (a permutation of the scored catalog), sorted by descending score,
and for every score value the candidates holding it appear in the
catalog original relative order (stability: first in catalog order wins
ties). -/
theorem c2_rank_perm_sorted_stable (msg : List Char) (cat : List TopicEntry) :
    (rank msg cat).Perm (cat.map fun e => (weighted_similarity msg e, e))
      ∧ (rank msg cat).Pairwise (fun a b => b.1 ≤ a.1)
      ∧ ∀ s : ℚ, (rank msg cat).filter (fun c => decide (c.1 = s))
          = (cat.map fun e => (weighted_similarity msg e, e)).filter
              (fun c => decide (c.1 = s)) :=
  ⟨sortDesc_perm _, sortDesc_sorted _, fun s => filter_sortDesc _ s⟩

theorem rank_length (msg : List Char) (cat : List TopicEntry) :
    (rank msg cat).length = cat.length := by
  have h := (sortDesc_perm (scoredList msg cat)).length_eq
  simpa [scoredList] using h

/-- C3: classification escalates to the oracle iff the top candidate
score is at least 700; below 700 it short-circuits to the fixed fallback
topic name `"Scholarship"` for every message and oracle. -/
theorem c3_confidence_gate (msg : List Char) (cat : List TopicEntry)
    (oracle : Prompt → OracleOutcome) (best : Candidate) (rest : List Candidate)
    (h : rank msg cat = best :: rest) :
    (best.1 < 700 → classify_message msg cat oracle = .ok (toL "Scholarship"))
      ∧ (700 ≤ best.1 →
          classify_message msg cat oracle
            = Except.map (fun p => parseOracle (oracle p)) (mkPrompt msg cat)) := by
  constructor
  · intro hb
    simp [classify_message, h, hb]
  · intro hb
    rcases hp : mkPrompt msg cat with f | p <;>
      simp [classify_message, h, not_lt.mpr hb, hp, Except.map]

/-- Witness for C3: a top score of 600 (< 700) yields `"Scholarship"`
without consulting the oracle; a top score of exactly 700 escalates and
returns the parse of the oracle outcome. -/
theorem c3_witness :
    (rank (toL "ab") [⟨toL "ab", some [], toL "xy", [], []⟩]
        = [(600, ⟨toL "ab", some [], toL "xy", [], []⟩)]
      ∧ (600 : ℚ) < 700
      ∧ classify_message (toL "ab") [⟨toL "ab", some [], toL "xy", [], []⟩]
          (fun _ => .requestExn) = .ok (toL "Scholarship"))
    ∧ (rank (toL "ab") [⟨toL "ab", some [], toL "xby", [], []⟩]
        = [(700, ⟨toL "ab", some [], toL "xby", [], []⟩)]
      ∧ (700 : ℚ) ≤ 700
      ∧ classify_message (toL "ab") [⟨toL "ab", some [], toL "xby", [], []⟩]
          (fun _ => .requestExn)
            = Except.map (fun p => parseOracle ((fun _ => OracleOutcome.requestExn) p))
                (mkPrompt (toL "ab") [⟨toL "ab", some [], toL "xby", [], []⟩])) := by
  have h1 : rank (toL "ab") [⟨toL "ab", some [], toL "xy", [], []⟩]
      = [(600, ⟨toL "ab", some [], toL "xy", [], []⟩)] := by with_unfolding_all decide
  have h2 : rank (toL "ab") [⟨toL "ab", some [], toL "xby", [], []⟩]
      = [(700, ⟨toL "ab", some [], toL "xby", [], []⟩)] := by with_unfolding_all decide
  refine ⟨⟨h1, by norm_num, ?_⟩, ⟨h2, le_refl _, ?_⟩⟩
  · exact (c3_confidence_gate _ _ _ _ _ h1).1 (by norm_num)
  · exact (c3_confidence_gate _ _ _ _ _ h2).2 (le_refl _)

theorem slimOf_ok (e : TopicEntry) (h : e.keywords ≠ none) :
    ∃ s, slimOf e = .ok s := by
  rcases hk : e.keywords with _ | kws
  · exact absurd hk h
  · exact ⟨⟨e.topic, e.summary, kws⟩, by simp [slimOf, hk]⟩

theorem slimList_ok (l : List Candidate) (h : ∀ c ∈ l, c.2.keywords ≠ none) :
    ∃ s, slimList l = .ok s := by
  induction l with
  | nil => exact ⟨[], rfl⟩
  | cons c cs ih =>
    rcases slimOf_ok c.2 (h c (by simp)) with ⟨s, hs⟩
    rcases ih (fun d hd => h d (by simp [hd])) with ⟨ss, hss⟩
    exact ⟨s :: ss, by simp [slimList, hs, hss]⟩

theorem rank_entries_mem (msg : List Char) (cat : List TopicEntry) (c : Candidate)
    (hc : c ∈ rank msg cat) : c.2 ∈ cat := by
  have h1 : c ∈ scoredList msg cat := (sortDesc_perm (scoredList msg cat)).mem_iff.mp hc
  simp only [scoredList] at h1
  rcases List.mem_map.mp h1 with ⟨e, he, rfl⟩
  exact he

theorem mkPrompt_ok (msg : List Char) (cat : List TopicEntry)
    (h : ∀ e ∈ cat, e.keywords ≠ none) :
    ∃ p, mkPrompt msg cat = .ok p := by
  have hall : ∀ c ∈ (rank msg cat).take 4, c.2.keywords ≠ none := by
    intro c hc
    exact h c.2 (rank_entries_mem msg cat c (List.take_subset 4 _ hc))
  rcases slimList_ok _ hall with ⟨s, hs⟩
  exact ⟨⟨s.map fun c => c.topic, s, msg⟩, by simp [mkPrompt, hs]⟩

/-- C4 counterexample: a catalog record without a `keywords` key scoring
at least 700 makes the escalation step raise a KeyError past its boundary
(`bot.py` line 75 subscripts `c[1]["keywords"]` outside the `try` block),
instead of any `"none"` degradation: the claim that escalation never
raises for every loaded catalog is false. -/
theorem c4_counterexample :
    classify_message (toL "ab") [⟨toL "ab", none, toL "xby", [], []⟩]
        (fun _ => .requestExn)
      = .error .keyError := by
  with_unfolding_all decide

/-- C4 (amended): when every catalog entry carries a `keywords` key, the
escalation step never raises — classification always returns a value —
and every enumerated oracle failure mode (non-success status, missing or
empty choices, blank content, network failure/timeout, any other
exception) parses to the string `"none"`.  Without that proviso a top-4
candidate lacking the key raises KeyError (see `c4_counterexample`). -/
theorem c4_escalation_never_raises_amended (msg : List Char)
    (cat : List TopicEntry) (oracle : Prompt → OracleOutcome) (hcat : cat ≠ [])
    (hkw : ∀ e ∈ cat, e.keywords ≠ none) :
    (∃ s, classify_message msg cat oracle = Except.ok s)
      ∧ ∀ res, oracleFails res → parseOracle res = toL "none" := by
  constructor
  · match hr : rank msg cat with
    | [] =>
      exfalso
      have hlen := rank_length msg cat
      rw [hr] at hlen
      exact hcat (List.eq_nil_of_length_eq_zero hlen.symm)
    | best :: rest =>
      by_cases hb : best.1 < 700
      · exact ⟨toL "Scholarship", by simp [classify_message, hr, hb]⟩
      · rcases mkPrompt_ok msg cat hkw with ⟨p, hp⟩
        exact ⟨parseOracle (oracle p),
          by simp [classify_message, hr, hb, hp]⟩
  · intro res hres
    match res with
    | .requestExn => rfl
    | .otherExn => rfl
    | .success r =>
      simp only [oracleFails] at hres
      by_cases hst : r.status_code = 200
      · rcases hres with hres | hres | hres | ⟨c, crest, hch, hstrip⟩
        · exact absurd hst hres
        · simp [parseOracle, hst, hres]
        · simp [parseOracle, hst, hres]
        · simp [parseOracle, hst, hch, hstrip]
      · simp [parseOracle, hst]

/-- Witness for C4 (amended) on a one-entry catalog whose entry carries a
`keywords` key, and a 500-status response. -/
theorem c4_witness :
    (∃ s, classify_message (toL "hello") [⟨toL "a", some [], [], [], []⟩]
        (fun _ => .requestExn) = Except.ok s)
      ∧ parseOracle (.success ⟨500, some [toL "hi"]⟩) = toL "none" := by
  have h := c4_escalation_never_raises_amended (toL "hello")
    [⟨toL "a", some [], [], [], []⟩] (fun _ => .requestExn) (by simp)
    (by intro e he; simp at he; subst he; simp)
  exact ⟨h.1, h.2 (.success ⟨500, some [toL "hi"]⟩) (Or.inl (by decide))⟩

/-- C6: for a delivered 200 response whose first choice has non-blank
content, the returned topic name is the first line of the stripped content,
whitespace-stripped, with surrounding double quotes stripped and all `**`
emphasis markers removed — with no case transformation applied. -/
theorem c6_oracle_answer_parsing (content : List Char) (crest : List (List Char))
    (h : stripWS content ≠ []) :
    parseOracle (.success ⟨200, some (content :: crest)⟩)
      = removeStars (stripQuote (stripWS (firstLine (stripWS content)))) := by
  simp [parseOracle, h]

/-- Witness for C6: the answer `" \"**Dev Setup**\" \nextra"` parses to
`"Dev Setup"`, preserving the oracle casing. -/
theorem c6_witness :
    stripWS (toL " \"**Dev Setup**\" \nextra") ≠ []
      ∧ parseOracle (.success ⟨200, some [toL " \"**Dev Setup**\" \nextra"]⟩)
          = removeStars (stripQuote (stripWS (firstLine
              (stripWS (toL " \"**Dev Setup**\" \nextra")))))
      ∧ removeStars (stripQuote (stripWS (firstLine
          (stripWS (toL " \"**Dev Setup**\" \nextra"))))) = toL "Dev Setup" := by
  refine ⟨by decide, ?_, by decide⟩
  exact c6_oracle_answer_parsing (toL " \"**Dev Setup**\" \nextra") [] (by decide)

/-- C7 counterexample: on an empty catalog, classification does not yield
a "no match" result — it faults with the IndexError raised by
`top_candidates[0]`. -/
theorem c7_counterexample :
    classify_message (toL "x") [] (fun _ => OracleOutcome.requestExn)
      = .error .indexError := rfl

/-- C7 (amended): for every message and oracle, classifying against an
empty catalog raises an index-out-of-range fault (rather than returning a
no-match result); callers must ensure the catalog is non-empty. -/
theorem c7_empty_catalog_faults (msg : List Char) (oracle : Prompt → OracleOutcome) :
    classify_message msg [] oracle = .error .indexError := rfl

/-- C5: resolution is a case-insensitive exact lookup, first match in
catalog order wins; the literal `"none"` (any case) or a lookup miss gives
the no-match payload `{reply: "none", link: null}`; a hit reply is the
entry reply, a newline, the `👉 ` marker and the entry link, together
with the resolved topic name. -/
theorem c5_resolver (topic : List Char) (cat : List TopicEntry) (u : List Char) :
    ((lower topic = toL "none" ∨ ∀ e ∈ cat, lower e.topic ≠ lower topic) →
        respond_resolve topic cat u = .noMatch (toL "none") none u)
      ∧ (∀ pre e suf, cat = pre ++ e :: suf → lower e.topic = lower topic →
          (∀ e2 ∈ pre, lower e2.topic ≠ lower topic) →
          lower topic ≠ toL "none" →
          respond_resolve topic cat u
            = .found (e.reply ++ toL "\n👉 " ++ e.link) topic u) := by
  constructor
  · intro h
    rcases h with h | h
    · simp [respond_resolve, h]
    · unfold respond_resolve
      split
      · rfl
      · have hfind : cat.find? (fun item => lower item.topic == lower topic) = none := by
          apply List.find?_eq_none.mpr
          intro e he
          simpa using h e he
        rw [hfind]
  · intro pre e suf hcat hme hpre hnone
    unfold respond_resolve
    rw [if_neg hnone]
    have hfind : cat.find? (fun item => lower item.topic == lower topic) = some e := by
      subst hcat
      induction pre with
      | nil =>
        rw [List.nil_append]
        exact List.find?_cons_of_pos _ (by simpa using hme)
      | cons pHead ps ih =>
        rw [List.cons_append,
          List.find?_cons_of_neg _ (by simpa using hpre pHead (by simp))]
        exact ih fun e2 he2 => hpre e2 (by simp [he2])
    rw [hfind]

/-- Witness for C5: the literal `"NONE"` resolves to no-match, and
`"SCHOLARSHIP"` case-insensitively resolves past a non-matching first
entry to the `"Scholarship"` entry. -/
theorem c5_witness :
    (lower (toL "NONE") = toL "none"
      ∧ respond_resolve (toL "NONE") [⟨toL "Other", some [], [], toL "ra", toL "la"⟩] (toL "u")
          = .noMatch (toL "none") none (toL "u"))
    ∧ (lower (toL "Scholarship") = lower (toL "SCHOLARSHIP")
      ∧ respond_resolve (toL "SCHOLARSHIP")
          [⟨toL "Other", some [], [], toL "ra", toL "la"⟩,
            ⟨toL "Scholarship", some [], [], toL "Here", toL "http://x"⟩] (toL "u")
          = .found (toL "Here" ++ toL "\n👉 " ++ toL "http://x") (toL "SCHOLARSHIP") (toL "u")) := by
  refine ⟨⟨by decide, ?_⟩, ⟨by decide, ?_⟩⟩
  · exact (c5_resolver (toL "NONE") [⟨toL "Other", some [], [], toL "ra", toL "la"⟩] (toL "u")).1
      (Or.inl (by decide))
  · exact (c5_resolver (toL "SCHOLARSHIP")
      [⟨toL "Other", some [], [], toL "ra", toL "la"⟩,
        ⟨toL "Scholarship", some [], [], toL "Here", toL "http://x"⟩] (toL "u")).2
      [⟨toL "Other", some [], [], toL "ra", toL "la"⟩]
      ⟨toL "Scholarship", some [], [], toL "Here", toL "http://x"⟩ [] rfl
      (by decide) (by decide) (by decide)

theorem weighted_similarity_slimEq (m : List Char) {e1 e2 : TopicEntry}
    (h : slimEq e1 e2) :
    weighted_similarity m e1 = weighted_similarity m e2 := by
  rcases h with ⟨ht, hk, hs⟩
  simp only [weighted_similarity, ht, hk, hs]

theorem scoredList_forall₂ (m : List Char) {cat1 cat2 : List TopicEntry}
    (h : List.Forall₂ slimEq cat1 cat2) :
    List.Forall₂ candEq (scoredList m cat1) (scoredList m cat2) := by
  induction h with
  | nil => exact List.Forall₂.nil
  | cons hx htail ih =>
    exact List.Forall₂.cons ⟨weighted_similarity_slimEq m hx, hx⟩ ih

theorem insertDesc_forall₂ {c d : Candidate} {l1 l2 : List Candidate}
    (hcd : candEq c d) (h : List.Forall₂ candEq l1 l2) :
    List.Forall₂ candEq (insertDesc c l1) (insertDesc d l2) := by
  induction h with
  | nil => exact List.Forall₂.cons hcd List.Forall₂.nil
  | cons hx htail ih =>
    rename_i x y l1s l2s
    unfold insertDesc
    by_cases hlt : c.1 < x.1
    · rw [if_pos hlt, if_pos (by rw [← hcd.1, ← hx.1]; exact hlt)]
      exact List.Forall₂.cons hx ih
    · rw [if_neg hlt, if_neg (by rw [← hcd.1, ← hx.1]; exact hlt)]
      exact List.Forall₂.cons hcd (List.Forall₂.cons hx htail)

theorem sortDesc_forall₂ {l1 l2 : List Candidate}
    (h : List.Forall₂ candEq l1 l2) :
    List.Forall₂ candEq (sortDesc l1) (sortDesc l2) := by
  induction h with
  | nil => exact List.Forall₂.nil
  | cons hx htail ih =>
    simp only [sortDesc]
    exact insertDesc_forall₂ hx ih

theorem forall₂_candEq_take (n : Nat) {l1 l2 : List Candidate}
    (h : List.Forall₂ candEq l1 l2) :
    List.Forall₂ candEq (l1.take n) (l2.take n) := by
  induction h generalizing n with
  | nil => simp only [List.take_nil]; exact List.Forall₂.nil
  | cons hx htail ih =>
    cases n with
    | zero => exact List.Forall₂.nil
    | succ k => simpa using List.Forall₂.cons hx (ih k)

theorem slimOf_congr {e1 e2 : TopicEntry} (h : slimEq e1 e2) :
    slimOf e1 = slimOf e2 := by
  rcases h with ⟨ht, hk, hs⟩
  simp only [slimOf, ht, hk, hs]

theorem slimList_congr {l1 l2 : List Candidate}
    (h : List.Forall₂ candEq l1 l2) : slimList l1 = slimList l2 := by
  induction h with
  | nil => rfl
  | cons hx htail ih =>
    simp only [slimList, slimOf_congr hx.2, ih]

theorem slimList_length {l : List Candidate} {s : List SlimCandidate}
    (h : slimList l = .ok s) : s.length = l.length := by
  induction l generalizing s with
  | nil =>
    simp only [slimList] at h
    injection h with h
    subst h
    rfl
  | cons c cs ih =>
    simp only [slimList] at h
    rcases ho : slimOf c.2 with f | s1
    · rw [ho] at h
      cases h
    · rw [ho] at h
      rcases hr : slimList cs with f | ss
      · rw [hr] at h
        cases h
      · rw [hr] at h
        injection h with h
        subst h
        simp [ih hr]

/-- C10: the oracle prompt is built from at most the top 4 ranked
candidates and reads only their `topic`, `summary` and `keywords` fields:
two catalogs whose entries differ only in `reply`/`link` produce the
identical prompt-construction outcome for the same message, and a built
prompt carries at most 4 candidates. -/
theorem c10_prompt_no_reply_link_leak (msg : List Char)
    (cat1 cat2 : List TopicEntry) (h : List.Forall₂ slimEq cat1 cat2) :
    mkPrompt msg cat1 = mkPrompt msg cat2
      ∧ ∀ p, mkPrompt msg cat1 = .ok p → p.candidates.length ≤ 4 := by
  have hr : List.Forall₂ candEq (rank msg cat1) (rank msg cat2) :=
    sortDesc_forall₂ (scoredList_forall₂ msg h)
  have hslim := slimList_congr (forall₂_candEq_take 4 hr)
  constructor
  · simp only [mkPrompt, hslim]
  · intro p hp
    simp only [mkPrompt] at hp
    rcases hs : slimList ((rank msg cat1).take 4) with f | slim
    · rw [hs] at hp
      cases hp
    · rw [hs] at hp
      injection hp with hp
      subst hp
      have hlen := slimList_length hs
      simp only [hlen, List.length_take]
      exact le_trans (min_le_left _ _) (le_refl 4)

/-- Witness for C10: singleton catalogs differing only in reply and link
yield the same prompt, and the built prompt has at most 4 candidates. -/
theorem c10_witness :
    List.Forall₂ slimEq [⟨toL "a", some [toL "k"], toL "s", toL "r1", toL "l1"⟩]
        [⟨toL "a", some [toL "k"], toL "s", toL "r2", toL "l2"⟩]
      ∧ mkPrompt (toL "m") [⟨toL "a", some [toL "k"], toL "s", toL "r1", toL "l1"⟩]
          = mkPrompt (toL "m") [⟨toL "a", some [toL "k"], toL "s", toL "r2", toL "l2"⟩]
      ∧ (Prompt.mk [toL "a"] [⟨toL "a", toL "s", [toL "k"]⟩]
          (toL "m")).candidates.length ≤ 4 := by
  have hf : List.Forall₂ slimEq [⟨toL "a", some [toL "k"], toL "s", toL "r1", toL "l1"⟩]
      [⟨toL "a", some [toL "k"], toL "s", toL "r2", toL "l2"⟩] :=
    List.Forall₂.cons ⟨rfl, rfl, rfl⟩ List.Forall₂.nil
  have h := c10_prompt_no_reply_link_leak (toL "m") _ _ hf
  refine ⟨hf, h.1, h.2 (Prompt.mk [toL "a"] [⟨toL "a", toL "s", [toL "k"]⟩] (toL "m")) ?_⟩
  with_unfolding_all decide
